import Mathlib

/-!
# Verification of the tag/version reconciliation and matching engine

A shallow embedding of the core logic of the `gitlab-release` tool
(package `release`): the changelog reconciler (`changelogReleases`,
`compareReleasesTags`), the slug normalizer (`refSlug`/`slugify`), the
tag/version matcher (`mapStringsToTags`, `mapPackagesToTags`), the
expected-link computation (`getExpectedLinks`), the historical-release
guard of `Upsert`, and the `mapTagsToDates`/`Sync` plumbing.

Go strings are modelled as lists of characters (`Str`); after the slug
cleanup step every character is ASCII, so Go's byte-level truncation and
byte-wise lexicographic comparison coincide with the character-level
operations used here.  Timestamps (`time.Time`) are modelled as integer
nanoseconds; `time.Duration` arithmetic is integer arithmetic.
-/

namespace GitlabRelease

/-- Go strings, modelled as lists of characters. -/
abbrev Str : Type := List Char

/-- Byte/rune-wise strict lexicographic order on strings, as used by Go's
`sort.StringSlice` and `slices.Sort` (UTF-8 byte order agrees with
code-point order). -/
def strLt : Str → Str → Bool
  | [], [] => false
  | [], _ :: _ => true
  | _ :: _, [] => false
  | a :: as, b :: bs =>
      if a.toNat < b.toNat then true
      else if b.toNat < a.toNat then false
      else strLt as bs

/-- `strings.HasPrefix s p`. -/
def hasPrefix : Str → Str → Bool
  | _, [] => true
  | [], _ :: _ => false
  | a :: s, b :: p => a == b && hasPrefix s p

/-- `strings.Contains s sub`: `sub` occurs as a contiguous substring of `s`. -/
def containsStr : Str → Str → Bool
  | [], sub => hasPrefix [] sub
  | a :: s, sub => hasPrefix (a :: s) sub || containsStr s sub

/-- Stable insertion of `a` into `l`: `a` is placed before the first
element `b` with `lt a b`, hence after all elements it does not strictly
precede. -/
def insertSorted (lt : α → α → Bool) (a : α) : List α → List α
  | [] => [a]
  | b :: bs => if lt a b then a :: b :: bs else b :: insertSorted lt a bs

/-- A stable sort by the strict comparison `lt`; models Go's
`sort.Stable` / `sort.SliceStable` (equal elements keep their original
relative order). -/
def stableSort (lt : α → α → Bool) (l : List α) : List α :=
  l.foldl (fun acc a => insertSorted lt a acc) []

/-! ## Slug normalizer (`utils.go`) -/

/-- `slugMaxLength` from `utils.go`. -/
def slugMaxLength : Nat := 63

/-- Whether a character is in the class `[a-z0-9]` of the regex
`slugCleanupRegex = [^a-z0-9]` (complemented), by code point:
`'a'`–`'z'` is 97–122 and `'0'`–`'9'` is 48–57. -/
def isSlugChar (c : Char) : Bool :=
  (97 ≤ c.toNat && c.toNat ≤ 122) || (48 ≤ c.toNat && c.toNat ≤ 57)

/-- `slugCleanupRegex.ReplaceAllString s "-"`: every character outside
`[a-z0-9]` is replaced by `'-'` (the regex matches a single character,
so each offending character yields its own hyphen). -/
def slugCleanup (s : Str) : Str :=
  s.map (fun c => if isSlugChar c then c else '-')

/-- Drop the leading run of hyphens (the `\A-+` alternative of
`slugTrimRegex`). -/
def dropLeadingHyphens (s : Str) : Str :=
  s.dropWhile (fun c => c == '-')

/-- Drop the trailing run of hyphens (the `-+\z` alternative of
`slugTrimRegex`). -/
def dropTrailingHyphens (s : Str) : Str :=
  (s.reverse.dropWhile (fun c => c == '-')).reverse

/-- `slugTrimRegex.ReplaceAllString s ""` for
`slugTrimRegex = (\A-+|-+\z)`: removes the leading and the trailing run
of hyphens. -/
def slugTrim (s : Str) : Str :=
  dropTrailingHyphens (dropLeadingHyphens s)

/-- `refSlug` from `utils.go`: lowercase, replace every character outside
`[a-z0-9]` with `'-'`, truncate to `slugMaxLength`, then strip leading
and trailing hyphen runs (after the truncation). -/
def refSlug (s : Str) : Str :=
  slugTrim ((slugCleanup (s.map Char.toLower)).take slugMaxLength)

/-- `slugify` from `release.go` (it just calls `refSlug`). -/
def slugify (s : Str) : Str :=
  refSlug s

/-! ## Data model (`release.go`) -/

/-- `Release` from `release.go`: information about a release extracted
from a Keep a Changelog changelog. -/
structure Release where
  Tag : Str
  Changes : Str
  Yanked : Bool
  deriving DecidableEq, Repr

/-- `Tag` from `release.go`: a git tag; `Date` is the tag timestamp in
integer nanoseconds. -/
structure Tag where
  Name : Str
  Date : Int
  deriving DecidableEq, Repr

/-- `Package` from `release.go`: a GitLab project's package.  Generic
packages have files which are listed directly, while non-generic
packages have a web path to which we just link. -/
structure Package where
  ID : Int
  Generic : Bool
  WebPath : Str
  Name : Str
  Version : Str
  Files : List Str
  deriving DecidableEq, Repr

/-! ## Tag transformations (`release.go`) -/

/-- `noChange`: the identity function for strings. -/
def noChange (s : Str) : Str := s

/-- `removeVPrefix`: `strings.TrimPrefix(s, "v")` removes a leading
`"v"` from the string, if present. -/
def removeVPrefix (s : Str) : Str :=
  if hasPrefix s ['v'] then s.drop 1 else s

/-- `removeVPrefixAndSlugify` combines `removeVPrefix` and `refSlug`. -/
def removeVPrefixAndSlugify (s : Str) : Str :=
  refSlug (removeVPrefix s)

/-- `tagTransformations` from `release.go`, in source order. -/
def tagTransformations : List (Str → Str) :=
  [noChange, removeVPrefix, slugify, removeVPrefixAndSlugify]

/-! ## Tag/version matcher (`mapStringsToTags`, `mapPackagesToTags`)

Both functions run the same nested loop, differing only in the matched
value type (`string` vs `Package`), the matched string (the input itself
vs `p.Version`) and the key recorded in the assigned set (the string
itself vs `p.ID`).  We embed the loop once, parametrized by those three
aspects, and instantiate it twice.

The Go result map `map[string][]T` is modelled as an association list
with unique keys, built by `addTo` (appending to the entry of an
existing key, or adding a new key); the claims about it are stated
through content (membership / lookup), never through entry order, since
Go map iteration order is unspecified. -/

/-- Append `p` to the list held under key `tag`, creating the entry if
the key is absent: models `tagsToInputs[tag] = append(tagsToInputs[tag], input)`. -/
def addTo {α : Type} : List (Str × List α) → Str → α → List (Str × List α)
  | [], tag, p => [(tag, [p])]
  | (k, v) :: rest, tag, p =>
      if k = tag then (k, v ++ [p]) :: rest
      else (k, v) :: addTo rest tag p

/-- The matcher state: the result map and the set of assigned keys
(models `tagsToInputs` together with `assignedInputs`). -/
abbrev MatchState (α K : Type) : Type := List (Str × List α) × List K

/-- The body of the innermost matcher loop, for one candidate `p`:
if `p`'s key is already assigned, skip it; if the transformed tag `t`
occurs in `p`'s matched string, record `p` under `tag` and mark its key
assigned. -/
def matchStep {α K : Type} [DecidableEq K] (key : α → K) (ver : α → Str)
    (tag t : Str) (st : MatchState α K) (p : α) : MatchState α K :=
  if key p ∈ st.2 then st
  else if containsStr (ver p) t then (addTo st.1 tag p, key p :: st.2)
  else st

/-- The middle matcher loop: one transformed tag against all inputs. -/
def matchTag {α K : Type} [DecidableEq K] (key : α → K) (ver : α → Str)
    (trf : Str → Str) (inputs : List α) (st : MatchState α K) (tag : Str) :
    MatchState α K :=
  inputs.foldl (matchStep key ver tag (trf tag)) st

/-- One transformation pass: all tags (in order) against all inputs. -/
def matchPass {α K : Type} [DecidableEq K] (key : α → K) (ver : α → Str)
    (tags : List Str) (inputs : List α) (st : MatchState α K)
    (trf : Str → Str) : MatchState α K :=
  tags.foldl (matchTag key ver trf inputs) st

/-- Run the passes of `trfs` in order, starting from the empty state. -/
def matchRun {α K : Type} [DecidableEq K] (key : α → K) (ver : α → Str)
    (trfs : List (Str → Str)) (tags : List Str) (inputs : List α) :
    MatchState α K :=
  trfs.foldl (matchPass key ver tags inputs) ([], [])

/-- The tag list as prepared by both matchers: release tags, stable-sorted
lexicographically and then stable-sorted by decreasing length. -/
def sortedTags (releases : List Release) : List Str :=
  stableSort (fun a b => b.length < a.length)
    (stableSort strLt (releases.map Release.Tag))

/-- `mapStringsToTags` from `release.go`: assign each input string to at
most one release tag, longest tags first, under the four
`tagTransformations` passes. -/
def mapStringsToTags (inputs : List Str) (releases : List Release) :
    List (Str × List Str) :=
  (matchRun id id tagTransformations (sortedTags releases)
    (stableSort strLt inputs)).1

/-- `mapPackagesToTags` from `release.go`: like `mapStringsToTags` but
packages are matched by their `Version` string and the assigned set
holds package `ID`s. -/
def mapPackagesToTags (packages : List Package) (releases : List Release) :
    List (Str × List Package) :=
  (matchRun Package.ID Package.Version tagTransformations (sortedTags releases)
    (stableSort (fun a b => strLt a.Version b.Version) packages)).1

/-! ## Changelog reconciler (`compareReleasesTags`, `changelogReleases`) -/

/-- The two `ConsistencyError` shapes produced by `compareReleasesTags`:
either the sorted changelog-only tags (detail key `"releases"`) or the
sorted VCS-only tags (detail key `"tags"`). -/
inductive ConsistencyError : Type where
  | extraReleases (releases : List Str)
  | extraTags (tags : List Str)
  deriving DecidableEq, Repr

/-- The `ToSlice`-then-`slices.Sort` of a set difference of two string
sets: the distinct elements of `a` not occurring in `b`, in ascending
lexicographic order. -/
def sortedSetDiff (a b : List Str) : List Str :=
  stableSort strLt ((a.dedup).filter (fun s => ! decide (s ∈ b)))

/-- `compareReleasesTags` from `release.go`: `none` when all releases
exactly match all tags, otherwise the first of the two consistency
errors (changelog-only tags win). -/
def compareReleasesTags (releases : List Release) (tags : List Tag) :
    Option ConsistencyError :=
  if sortedSetDiff (releases.map Release.Tag) (tags.map Tag.Name) ≠ [] then
    some (.extraReleases
      (sortedSetDiff (releases.map Release.Tag) (tags.map Tag.Name)))
  else if sortedSetDiff (tags.map Tag.Name) (releases.map Release.Tag) ≠ [] then
    some (.extraTags
      (sortedSetDiff (tags.map Tag.Name) (releases.map Release.Tag)))
  else none

/-- A changelog entry as produced by the external changelog parser
(`changelog.Parse`): a version, an optional release date, the body lines
(the first line is the heading), and the yanked marker. -/
structure ChangelogEntry where
  Version : Str
  Date : Option Int
  Body : List Str
  Yanked : Bool
  deriving DecidableEq, Repr

/-- The two `FormatError` shapes produced by `changelogReleases` for a
structurally valid but ill-formed changelog entry. -/
inductive FormatError : Type where
  | startsWithV (version : Str)
  | missingDate (version : Str)
  deriving DecidableEq, Repr

/-- `strings.ToLower`, character by character. -/
def strToLower (s : Str) : Str :=
  s.map Char.toLower

/-- The `Release` built from an accepted changelog entry: the tag is the
version with a `"v"` prefix, the changes are the body lines after the
heading joined by newlines. -/
def entryRelease (e : ChangelogEntry) : Release :=
  { Tag := 'v' :: e.Version
    Changes := List.intercalate ['\n'] (e.Body.drop 1)
    Yanked := e.Yanked }

/-- The per-entry loop of `changelogReleases` from `release.go`, applied
to the parsed entry list: skip `"unreleased"` entries (case-insensitive),
fail on a `"v"`-prefixed version, fail on a missing date, else emit one
`Release` per entry in order. -/
def changelogReleases : List ChangelogEntry → Except FormatError (List Release)
  | [] => .ok []
  | e :: rest =>
      if strToLower e.Version = "unreleased".toList then changelogReleases rest
      else if hasPrefix e.Version ['v'] then .error (.startsWithV e.Version)
      else
        match e.Date with
        | none => .error (.missingDate e.Version)
        | some _ =>
            match changelogReleases rest with
            | .error err => .error err
            | .ok rs => .ok (entryRelease e :: rs)

/-! ## Expected links (`getExpectedLinks`) -/

/-- An expected release asset link, as built by `getExpectedLinks`:
`ID` is always absent, the `Package` pointer is always set, and `File`
is set exactly for the per-file links of generic packages. -/
structure ExpectedLink where
  Name : Str
  Package : Package
  File : Option Str
  deriving DecidableEq, Repr

/-- Go map assignment `m[k] = v`: overwrite the entry of an existing
key, or add a new entry. -/
def mapPut {α : Type} : List (Str × α) → Str → α → List (Str × α)
  | [], k, v => [(k, v)]
  | (k', v') :: m, k, v =>
      if k' = k then (k', v) :: m
      else (k', v') :: mapPut m k v

/-- The `(name, link)` pairs emitted by the loop of `getExpectedLinks`,
in emission order: one pair per file for a generic package (named
`"{p.Name}/{file}"`), one pair for a non-generic package (named
`p.Name`). -/
def emittedLinks (packages : List Package) : List (Str × ExpectedLink) :=
  packages.flatMap (fun p =>
    if p.Generic then
      p.Files.map (fun file =>
        (p.Name ++ '/' :: file,
         { Name := p.Name ++ '/' :: file, Package := p, File := some file }))
    else
      [(p.Name, { Name := p.Name, Package := p, File := none })])

/-- `getExpectedLinks` from `release.go`: the map from link name to
expected link, built by successive Go map assignments (a later entry
with the same name overwrites an earlier one). -/
def getExpectedLinks (packages : List Package) : List (Str × ExpectedLink) :=
  (emittedLinks packages).foldl (fun m kv => mapPut m kv.1 kv.2) []

/-! ## `Upsert` and the historical-release guard -/

/-- `12 * time.Hour` in nanoseconds. -/
def twelveHours : Int := 12 * 3600 * 1000000000

/-- `time.Hour` in nanoseconds. -/
def oneHour : Int := 3600 * 1000000000

/-- The options passed to `client.Releases.CreateRelease` on the create
path of `Upsert` (the fields the core computes). -/
structure CreateReleaseOptions where
  Name : Str
  TagName : Str
  Description : Str
  Milestones : List Str
  Links : List (Str × ExpectedLink)
  ReleasedAt : Option Int
  deriving DecidableEq, Repr

/-- The options passed to `client.Releases.UpdateRelease` on the update
path of `Upsert`. -/
structure UpdateReleaseOptions where
  Name : Str
  Description : Str
  ReleasedAt : Option Int
  Milestones : List Str
  deriving DecidableEq, Repr

/-- What the remote lookup `GetRelease` reported: the release is absent
(HTTP 404), or exists with the given `CreatedAt` timestamp. -/
inductive RemoteRelease : Type where
  | notFound
  | exists_ (createdAt : Int)
  deriving DecidableEq, Repr

/-- The action `Upsert` decides on (the platform calls it would issue). -/
inductive UpsertAction : Type where
  | skipped
  | create (opts : CreateReleaseOptions)
  | update (opts : UpdateReleaseOptions)
  deriving DecidableEq, Repr

/-- The display name computed by `Upsert`: the tag, with a
`" [YANKED]"` suffix iff the release is yanked. -/
def upsertName (release : Release) : Str :=
  if release.Yanked then release.Tag ++ " [YANKED]".toList else release.Tag

/-- The description computed by `Upsert`: the fixed banner comment, a
Docker-images section iff any images are associated, then the changes. -/
def upsertDescription (release : Release) (images : List Str) : Str :=
  ("<!-- Automatically generated by gitlab.com/tozd/gitlab/release tool. DO NOT EDIT. -->\n\n".toList
    ++ (if images.length > 0 then
          "##### Docker images\n".toList
            ++ images.flatMap (fun image => "* `".toList ++ image ++ "`\n".toList)
            ++ ['\n']
        else []))
    ++ release.Changes

/-- The decision logic of `Upsert` from `release.go`, with the platform
calls abstracted away: `remote` is what `GetRelease` reported and `now`
is the current time in nanoseconds.  The result is `none` exactly when
the Go code would dereference a nil `releasedAt` pointer (a crash);
otherwise it is the action taken.  On the create path the
historical-release guard drops `ReleasedAt` when the hint is within 12
hours of `now`; on the update path it replaces the hint by the remote
creation time when the two are within 12 hours of each other. -/
def upsert (noCreate : Bool) (remote : RemoteRelease) (now : Int)
    (release : Release) (releasedAt : Option Int) (milestones : List Str)
    (packages : List Package) (images : List Str) : Option UpsertAction :=
  let name := upsertName release
  let description := upsertDescription release images
  match remote with
  | .notFound =>
      if noCreate then some .skipped
      else
        match releasedAt with
        | none => none
        | some t =>
            let releasedAt : Option Int :=
              if (now - t).natAbs < twelveHours.toNat then none else some t
            some (.create
              { Name := name
                TagName := release.Tag
                Description := description
                Milestones := milestones
                Links := getExpectedLinks packages
                ReleasedAt := releasedAt })
  | .exists_ createdAt =>
      match releasedAt with
      | none => none
      | some t =>
          let releasedAt : Option Int :=
            if (createdAt - t).natAbs < twelveHours.toNat then some createdAt
            else some t
          some (.update
            { Name := name
              Description := description
              ReleasedAt := releasedAt
              Milestones := milestones })

/-! ## `mapTagsToDates` and the `Sync` upsert loop -/

/-- `mapTagsToDates` from `release.go`: the Go map from tag name to (a
pointer to) the tag date, built by iterated assignment; looking up a
missing key yields the zero value `nil`, modelled as `none`. -/
def mapTagsToDates (tags : List Tag) : Str → Option Int :=
  tags.foldl (fun m tag => fun s => if s = tag.Name then some tag.Date else m s)
    (fun _ => none)

/-- The `releasedAt` argument each iteration of the `Sync` upsert loop
passes to `Upsert`: `tagsToDates[release.Tag]`, paired with the release. -/
def syncUpsertHints (releases : List Release) (tags : List Tag) :
    List (Release × Option Int) :=
  releases.map (fun release => (release, mapTagsToDates tags release.Tag))

/-! ## Further definitions used by the theorems below -/

/-- `p` appears in the list stored under key `g` of the association list
`m`. -/
def memAssoc {α : Type} (m : List (Str × List α)) (g : Str) (p : α) : Prop :=
  ∃ v, (g, v) ∈ m ∧ p ∈ v

/-- Boolean version of `memAssoc`. -/
def memAssocB {α : Type} [DecidableEq α] (m : List (Str × List α)) (g : Str)
    (p : α) : Bool :=
  m.any (fun kv => decide (kv.1 = g) && decide (p ∈ kv.2))

/-- The "state only grows" relation on matcher states: every recorded
assignment stays recorded, every assigned key stays assigned. -/
def stateLe {α K : Type} (st st' : MatchState α K) : Prop :=
  (∀ g p, memAssoc st.1 g p → memAssoc st'.1 g p) ∧ ∀ k, k ∈ st.2 → k ∈ st'.2

/-- The matcher state after the first `k` transformation passes. -/
def matchRunPrefix {α K : Type} [DecidableEq K] (key : α → K) (ver : α → Str)
    (trfs : List (Str → Str)) (tags : List Str) (inputs : List α) (k : Nat) :
    MatchState α K :=
  (trfs.take k).foldl (matchPass key ver tags inputs) ([], [])

/-- The exclusivity invariant: every recorded candidate has its key in
the assigned set, and two recorded candidates with the same key are the
same candidate under the same tag. -/
def matchInv {α K : Type} (key : α → K) (st : MatchState α K) : Prop :=
  (∀ g p, memAssoc st.1 g p → key p ∈ st.2) ∧
  ∀ g g' p p', memAssoc st.1 g p → memAssoc st.1 g' p' → key p = key p' →
    g = g' ∧ p = p'

/-- The string-matcher state after `k` passes (the loop of
`mapStringsToTags` stopped after the first `k` of the four
transformations). -/
def strMatchStates (inputs : List Str) (releases : List Release) (k : Nat) :
    MatchState Str Str :=
  matchRunPrefix id id tagTransformations (sortedTags releases)
    (stableSort strLt inputs) k

/-- The package-matcher state after `k` passes. -/
def pkgMatchStates (packages : List Package) (releases : List Release)
    (k : Nat) : MatchState Package Int :=
  matchRunPrefix Package.ID Package.Version tagTransformations
    (sortedTags releases)
    (stableSort (fun a b => strLt a.Version b.Version) packages) k

/-- The slug algorithm as the spec words it (the refinement comparison
definition, written from the spec, not from the source): every *maximal
run* of consecutive characters outside `[a-z0-9]` is replaced by a
*single* `'-'`; a character of a run that is followed by another run
character contributes nothing, the last character of the run contributes
the single hyphen. -/
def collapseRuns : Str → Str
  | [] => []
  | [c] => if isSlugChar c then [c] else ['-']
  | c :: d :: s =>
      if isSlugChar c then c :: collapseRuns (d :: s)
      else if isSlugChar d then '-' :: collapseRuns (d :: s)
      else collapseRuns (d :: s)

/-- The spec's slug algorithm (§4.1 as written): lowercase, collapse
each maximal non-`[a-z0-9]` run to one `'-'`, truncate to 63, then strip
leading/trailing hyphen runs. -/
def slugifySpecRuns (s : Str) : Str :=
  slugTrim ((collapseRuns (strToLower s)).take slugMaxLength)

/-- The amended slug algorithm, written independently of `refSlug`'s
definition: each character outside `[a-z0-9]` is replaced by its own
`'-'` (runs are *not* collapsed), then truncate to 63, then strip
leading and trailing hyphen runs (after the truncation). -/
def replaceEachNonSlug : Str → Str
  | [] => []
  | c :: s => (if isSlugChar c then c else '-') :: replaceEachNonSlug s

/-- The amended spec algorithm for C3. -/
def slugifySpecAmended (s : Str) : Str :=
  slugTrim ((replaceEachNonSlug (strToLower s)).take slugMaxLength)

/-- Go map indexing `m[k]` on the association-list model: the value of
the first entry with the given key, if any. -/
def mapGet {α : Type} : List (Str × α) → Str → Option α
  | [], _ => none
  | (k, v) :: m, s => if s = k then some v else mapGet m s

/-! ## Lemmas about the lexicographic order `strLt` -/

theorem charToNat_inj {c d : Char} (h : c.toNat = d.toNat) : c = d :=
  Char.ext (UInt32.toNat.inj h)

theorem strLt_asymm : ∀ {a b : Str}, strLt a b = true → strLt b a = false
  | [], [], h => by simp [strLt] at h
  | [], _ :: _, _ => by simp [strLt]
  | _ :: _, [], h => by simp [strLt] at h
  | a :: as, b :: bs, h => by
      simp only [strLt] at h ⊢
      rcases Nat.lt_trichotomy a.toNat b.toNat with h1 | h1 | h1
      · simp [Nat.lt_asymm h1, h1]
      · simp only [h1, Nat.lt_irrefl, if_false] at h ⊢
        exact strLt_asymm h
      · simp [h1, Nat.lt_asymm h1] at h

theorem strLt_false_trans : ∀ {a b c : Str},
    strLt a b = false → strLt b c = false → strLt a c = false
  | [], [], _, _, h2 => h2
  | [], _ :: _, _, h1, _ => by simp [strLt] at h1
  | _ :: _, [], [], _, _ => by simp [strLt]
  | _ :: _, [], _ :: _, _, h2 => by simp [strLt] at h2
  | _ :: _, _ :: _, [], _, _ => by simp [strLt]
  | a :: as, b :: bs, c :: cs, h1, h2 => by
      simp only [strLt] at h1 h2 ⊢
      by_cases hab : a.toNat < b.toNat
      · simp [hab] at h1
      · by_cases hbc : b.toNat < c.toNat
        · simp [hbc] at h2
        · by_cases hba : b.toNat < a.toNat
          · simp [show ¬ a.toNat < c.toNat by omega,
              show c.toNat < a.toNat by omega]
          · by_cases hcb : c.toNat < b.toNat
            · simp [show ¬ a.toNat < c.toNat by omega,
                show c.toNat < a.toNat by omega]
            · have h1' : strLt as bs = false := by simpa [hab, hba] using h1
              have h2' : strLt bs cs = false := by simpa [hbc, hcb] using h2
              simp [show ¬ a.toNat < c.toNat by omega,
                show ¬ c.toNat < a.toNat by omega,
                strLt_false_trans h1' h2']

theorem strLt_conn : ∀ {a b : Str}, strLt a b = false → strLt b a = false → a = b
  | [], [], _, _ => rfl
  | [], _ :: _, h1, _ => by simp [strLt] at h1
  | _ :: _, [], _, h2 => by simp [strLt] at h2
  | a :: as, b :: bs, h1, h2 => by
      simp only [strLt] at h1 h2
      by_cases hab : a.toNat < b.toNat
      · simp [hab] at h1
      · by_cases hba : b.toNat < a.toNat
        · simp [hba] at h2
        · have h1' : strLt as bs = false := by simpa [hab, hba] using h1
          have h2' : strLt bs as = false := by simpa [hab, hba] using h2
          have hb : a = b := charToNat_inj (by omega)
          rw [hb, strLt_conn h1' h2']

/-! ## Lemmas about `insertSorted` and `stableSort` -/

theorem insertSorted_perm (lt : α → α → Bool) (a : α) :
    ∀ l : List α, List.Perm (insertSorted lt a l) (a :: l)
  | [] => List.Perm.refl _
  | b :: bs => by
      simp only [insertSorted]
      split
      · exact List.Perm.refl _
      · exact ((insertSorted_perm lt a bs).cons b).trans (List.Perm.swap a b bs)

theorem foldl_insertSorted_perm (lt : α → α → Bool) :
    ∀ (l acc : List α),
      List.Perm (l.foldl (fun acc a => insertSorted lt a acc) acc) (acc ++ l)
  | [], acc => by simp
  | a :: l, acc => by
      simp only [List.foldl_cons]
      refine (foldl_insertSorted_perm lt l _).trans ?_
      exact ((insertSorted_perm lt a acc).append_right l).trans
        List.perm_middle.symm

theorem stableSort_perm (lt : α → α → Bool) (l : List α) :
    List.Perm (stableSort lt l) l := by
  simpa using foldl_insertSorted_perm lt l []

theorem mem_insertSorted {lt : α → α → Bool} {a b : α} {l : List α} :
    b ∈ insertSorted lt a l ↔ b = a ∨ b ∈ l := by
  rw [(insertSorted_perm lt a l).mem_iff]
  simp

theorem insertSorted_pairwise {lt : α → α → Bool}
    (hfalse : ∀ x y z, lt x y = false → lt y z = false → lt x z = false)
    (hasym : ∀ x y, lt x y = true → lt y x = false) (a : α) :
    ∀ {l : List α}, l.Pairwise (fun x y => lt y x = false) →
      (insertSorted lt a l).Pairwise (fun x y => lt y x = false)
  | [], _ => by simp [insertSorted]
  | b :: bs, hl => by
      rw [List.pairwise_cons] at hl
      obtain ⟨hb, hbs⟩ := hl
      simp only [insertSorted]
      split
      · rename_i hab
        rw [List.pairwise_cons]
        refine ⟨?_, List.pairwise_cons.mpr ⟨hb, hbs⟩⟩
        intro c hc
        rcases List.mem_cons.mp hc with rfl | hc
        · exact hasym a c hab
        · exact hfalse c b a (hb c hc) (hasym a b hab)
      · rename_i hab
        rw [List.pairwise_cons]
        constructor
        · intro c hc
          rcases mem_insertSorted.mp hc with rfl | hc
          · exact Bool.not_eq_true _ ▸ hab
          · exact hb c hc
        · exact insertSorted_pairwise hfalse hasym a hbs

theorem stableSort_pairwise {lt : α → α → Bool}
    (hfalse : ∀ x y z, lt x y = false → lt y z = false → lt x z = false)
    (hasym : ∀ x y, lt x y = true → lt y x = false) (l : List α) :
    (stableSort lt l).Pairwise (fun x y => lt y x = false) := by
  suffices h : ∀ (l acc : List α),
      acc.Pairwise (fun x y => lt y x = false) →
      (l.foldl (fun acc a => insertSorted lt a acc) acc).Pairwise
        (fun x y => lt y x = false) from h l [] (by simp)
  intro l
  induction l with
  | nil => intro acc h; simpa using h
  | cons a l ih =>
      intro acc h
      exact ih _ (insertSorted_pairwise hfalse hasym a h)

/-- On a duplicate-free list, the stable sort by `strLt` is strictly
ascending. -/
theorem stableSort_strLt_strict {l : List Str} (hl : l.Nodup) :
    (stableSort strLt l).Pairwise (fun x y => strLt x y = true) := by
  have hs := @stableSort_pairwise Str strLt
    (fun x y z h1 h2 => strLt_false_trans h1 h2)
    (fun x y h => strLt_asymm h) l
  have hn : (stableSort strLt l).Nodup :=
    ((stableSort_perm strLt l).nodup_iff).mpr hl
  have := List.Pairwise.and hn hs
  refine this.imp ?_
  rintro a b ⟨hne, hba⟩
  cases hab : strLt a b with
  | true => rfl
  | false => exact absurd (strLt_conn hab hba) hne

/-! ## Lemmas about the slug normalizer -/

theorem dropWhile_head_false {p : α → Bool} {l : List α} {a : α} {t : List α}
    (h : l.dropWhile p = a :: t) : p a = false := by
  have hh := List.head?_dropWhile_not p l
  rw [h] at hh
  simpa using hh

theorem dropWhile_eq_self_of_head {p : α → Bool} {l : List α}
    (h : ∀ a t, l = a :: t → p a = false) : l.dropWhile p = l := by
  cases l with
  | nil => rfl
  | cons a t => simp [List.dropWhile_cons, h a t rfl]

theorem isPrefixOf_head {l m : List α} {a : α} {t : List α}
    (hp : l <+: m) (hl : l = a :: t) : ∃ t', m = a :: t' := by
  obtain ⟨r, hr⟩ := hp
  subst hl
  exact ⟨t ++ r, by simp [hr.symm]⟩

theorem dropTrailingHyphens_isPrefixOf (y : Str) : dropTrailingHyphens y <+: y := by
  have h := @List.dropWhile_suffix Char y.reverse (fun c => c == '-')
  have h2 : (List.dropWhile (fun c => c == '-') y.reverse).reverse
      <+: y.reverse.reverse := List.reverse_prefix.mpr h
  simpa [dropTrailingHyphens] using h2

theorem slugTrim_idem (x : Str) : slugTrim (slugTrim x) = slugTrim x := by
  have hheadclean : ∀ a t, dropLeadingHyphens x = a :: t →
      (a == '-') = false :=
    fun a t h => @dropWhile_head_false Char (fun c => c == '-') x a t h
  -- the trimmed string has no leading hyphen
  have hzclean : ∀ a t, slugTrim x = a :: t → (a == '-') = false := by
    intro a t h
    obtain ⟨t', ht'⟩ := isPrefixOf_head (dropTrailingHyphens_isPrefixOf _) h
    exact hheadclean a t' ht'
  -- the trimmed string has no trailing hyphen
  have hzrev : ∀ a t, (slugTrim x).reverse = a :: t → (a == '-') = false := by
    intro a t h
    unfold slugTrim dropTrailingHyphens at h
    rw [List.reverse_reverse] at h
    exact @dropWhile_head_false Char (fun c => c == '-')
      (dropLeadingHyphens x).reverse a t h
  have h1 : dropLeadingHyphens (slugTrim x) = slugTrim x :=
    dropWhile_eq_self_of_head hzclean
  have h2 : dropTrailingHyphens (slugTrim x) = slugTrim x := by
    unfold dropTrailingHyphens
    rw [dropWhile_eq_self_of_head hzrev, List.reverse_reverse]
  calc slugTrim (slugTrim x)
      = dropTrailingHyphens (dropLeadingHyphens (slugTrim x)) := rfl
    _ = dropTrailingHyphens (slugTrim x) := by rw [h1]
    _ = slugTrim x := h2

theorem mem_dropTrailingHyphens {y : Str} {c : Char}
    (h : c ∈ dropTrailingHyphens y) : c ∈ y :=
  (dropTrailingHyphens_isPrefixOf y).subset h

theorem mem_slugTrim {y : Str} {c : Char} (h : c ∈ slugTrim y) : c ∈ y :=
  (List.dropWhile_sublist _).subset (mem_dropTrailingHyphens h)

theorem mem_refSlug {s : Str} {c : Char} (hc : c ∈ refSlug s) :
    isSlugChar c = true ∨ c = '-' := by
  have h1 : c ∈ slugCleanup (s.map Char.toLower) :=
    List.take_subset _ _ (mem_slugTrim hc)
  obtain ⟨a, _, ha⟩ := List.mem_map.mp h1
  by_cases hslug : isSlugChar a
  · left; rw [← ha]; simp [hslug]
  · right; rw [← ha]; simp [hslug]

theorem toLower_eq_self_of_slug {c : Char} (h : isSlugChar c = true ∨ c = '-') :
    c.toLower = c := by
  rcases h with h | rfl
  · simp only [isSlugChar, Bool.or_eq_true, Bool.and_eq_true,
      decide_eq_true_eq] at h
    have hn : ¬ (c.toNat ≥ 65 ∧ c.toNat ≤ 90) := by omega
    simp [Char.toLower, hn]
  · decide

theorem slugCleanup_fix {c : Char} (h : isSlugChar c = true ∨ c = '-') :
    (if isSlugChar c then c else '-') = c := by
  rcases h with h | rfl
  · simp [h]
  · simp

theorem length_slugTrim_le (y : Str) : (slugTrim y).length ≤ y.length := by
  refine Nat.le_trans
    ((dropTrailingHyphens_isPrefixOf (dropLeadingHyphens y)).sublist.length_le) ?_
  exact (List.dropWhile_sublist _).length_le

theorem length_refSlug_le (s : Str) : (refSlug s).length ≤ slugMaxLength := by
  refine Nat.le_trans (length_slugTrim_le _) ?_
  rw [List.length_take]
  exact Nat.min_le_left _ _

theorem refSlug_refSlug (s : Str) : refSlug (refSlug s) = refSlug s := by
  have hchar : ∀ c ∈ refSlug s, isSlugChar c = true ∨ c = '-' :=
    fun c hc => mem_refSlug hc
  have hlower : (refSlug s).map Char.toLower = refSlug s :=
    (List.map_congr_left (fun a ha => toLower_eq_self_of_slug (hchar a ha))).trans
      (List.map_id _)
  have hclean : slugCleanup (refSlug s) = refSlug s :=
    (List.map_congr_left (fun a ha => slugCleanup_fix (hchar a ha))).trans
      (List.map_id _)
  have hstep : refSlug (refSlug s)
      = slugTrim ((slugCleanup ((refSlug s).map Char.toLower)).take slugMaxLength) :=
    rfl
  rw [hstep, hlower, hclean, List.take_of_length_le (length_refSlug_le s)]
  exact slugTrim_idem _

/-! ## Lemmas about the matcher

`memAssoc m g p` says that candidate `p` is recorded under tag `g` in
the result map `m`; its boolean counterpart `memAssocB` is used in
statements so that concrete instances are decidable. -/

theorem memAssocB_iff {α : Type} [DecidableEq α] {m : List (Str × List α)}
    {g : Str} {p : α} : memAssocB m g p = true ↔ memAssoc m g p := by
  unfold memAssocB memAssoc
  rw [List.any_eq_true]
  constructor
  · rintro ⟨⟨k, v⟩, hm, hkv⟩
    simp only [Bool.and_eq_true, decide_eq_true_eq] at hkv
    exact ⟨v, by rwa [← hkv.1], hkv.2⟩
  · rintro ⟨v, hm, hv⟩
    exact ⟨(g, v), hm, by simp [hv]⟩

theorem memAssoc_addTo {α : Type} {m : List (Str × List α)} {tag g : Str}
    {p q : α} :
    memAssoc (addTo m tag q) g p ↔ memAssoc m g p ∨ (g = tag ∧ p = q) := by
  induction m with
  | nil =>
      unfold addTo memAssoc
      constructor
      · rintro ⟨v, hv, hp⟩
        simp only [List.mem_singleton, Prod.mk.injEq] at hv
        right
        obtain ⟨h1, h2⟩ := hv
        rw [h2] at hp
        simp only [List.mem_singleton] at hp
        exact ⟨h1, hp⟩
      · rintro (⟨v, hv, _⟩ | ⟨rfl, rfl⟩)
        · simp at hv
        · exact ⟨[p], by simp, by simp⟩
  | cons kv rest ih =>
      obtain ⟨k, v⟩ := kv
      unfold addTo
      by_cases hk : k = tag
      · subst hk
        simp only [if_pos rfl]
        unfold memAssoc
        constructor
        · rintro ⟨w, hw, hp⟩
          rcases List.mem_cons.mp hw with heq | hw
          · obtain ⟨h1, h2⟩ := Prod.mk.injEq .. ▸ heq
            rw [h2] at hp
            rcases List.mem_append.mp hp with hp | hp
            · exact .inl ⟨v, by simp [h1.symm], hp⟩
            · simp only [List.mem_singleton] at hp
              exact .inr ⟨h1.symm ▸ rfl, hp⟩
          · exact .inl ⟨w, List.mem_cons_of_mem _ hw, hp⟩
        · rintro (⟨w, hw, hp⟩ | ⟨rfl, rfl⟩)
          · rcases List.mem_cons.mp hw with heq | hw
            · obtain ⟨h1, h2⟩ := Prod.mk.injEq .. ▸ heq
              exact ⟨v ++ [q], by simp [h1.symm], by rw [h2] at hp; simp [hp]⟩
            · exact ⟨w, List.mem_cons_of_mem _ hw, hp⟩
          · exact ⟨v ++ [p], by simp, by simp⟩
      · simp only [if_neg hk]
        unfold memAssoc
        constructor
        · rintro ⟨w, hw, hp⟩
          rcases List.mem_cons.mp hw with heq | hw
          · exact .inl ⟨w, by simp [heq], hp⟩
          · rcases ih.mp ⟨w, hw, hp⟩ with h | h
            · obtain ⟨u, hu, hpu⟩ := h
              exact .inl ⟨u, List.mem_cons_of_mem _ hu, hpu⟩
            · exact .inr h
        · rintro (⟨w, hw, hp⟩ | ⟨rfl, rfl⟩)
          · rcases List.mem_cons.mp hw with heq | hw
            · exact ⟨w, by simp [heq], hp⟩
            · obtain ⟨u, hu, hpu⟩ := ih.mpr (.inl ⟨w, hw, hp⟩)
              exact ⟨u, List.mem_cons_of_mem _ hu, hpu⟩
          · obtain ⟨u, hu, hpu⟩ := ih.mpr (.inr ⟨rfl, rfl⟩)
            exact ⟨u, List.mem_cons_of_mem _ hu, hpu⟩

theorem stateLe_refl {α K : Type} (st : MatchState α K) : stateLe st st :=
  ⟨fun _ _ h => h, fun _ h => h⟩

theorem stateLe_trans {α K : Type} {a b c : MatchState α K}
    (h1 : stateLe a b) (h2 : stateLe b c) : stateLe a c :=
  ⟨fun g p h => h2.1 g p (h1.1 g p h), fun k h => h2.2 k (h1.2 k h)⟩

theorem matchStep_le {α K : Type} [DecidableEq K] (key : α → K) (ver : α → Str)
    (tag t : Str) (st : MatchState α K) (p : α) :
    stateLe st (matchStep key ver tag t st p) := by
  unfold matchStep
  split
  · exact stateLe_refl st
  split
  · exact ⟨fun g q h => memAssoc_addTo.mpr (.inl h),
      fun k h => List.mem_cons_of_mem _ h⟩
  · exact stateLe_refl st

theorem foldl_rel {σ β : Type} (R : σ → σ → Prop) (hrefl : ∀ s, R s s)
    (htrans : ∀ {a b c : σ}, R a b → R b c → R a c) (f : σ → β → σ)
    (hf : ∀ s b, R s (f s b)) : ∀ (l : List β) (s : σ), R s (l.foldl f s)
  | [], s => hrefl s
  | b :: l, s =>
      htrans (hf s b) (foldl_rel R hrefl htrans f hf l (f s b))

theorem foldl_preserve {σ β : Type} {P : σ → Prop} (f : σ → β → σ)
    (hf : ∀ s b, P s → P (f s b)) :
    ∀ (l : List β) (s : σ), P s → P (l.foldl f s)
  | [], _, h => h
  | b :: l, s, h => foldl_preserve f hf l (f s b) (hf s b h)

theorem matchTag_le {α K : Type} [DecidableEq K] (key : α → K) (ver : α → Str)
    (trf : Str → Str) (inputs : List α) (st : MatchState α K) (tag : Str) :
    stateLe st (matchTag key ver trf inputs st tag) :=
  foldl_rel stateLe stateLe_refl stateLe_trans _
    (fun s b => matchStep_le key ver tag (trf tag) s b) inputs st

theorem matchPass_le {α K : Type} [DecidableEq K] (key : α → K) (ver : α → Str)
    (tags : List Str) (inputs : List α) (st : MatchState α K)
    (trf : Str → Str) :
    stateLe st (matchPass key ver tags inputs st trf) :=
  foldl_rel stateLe stateLe_refl stateLe_trans _
    (fun s tag => matchTag_le key ver trf inputs s tag) tags st

theorem matchRunPrefix_le {α K : Type} [DecidableEq K] (key : α → K)
    (ver : α → Str) (trfs : List (Str → Str)) (tags : List Str)
    (inputs : List α) {k k' : Nat} (h : k ≤ k') :
    stateLe (matchRunPrefix key ver trfs tags inputs k)
      (matchRunPrefix key ver trfs tags inputs k') := by
  unfold matchRunPrefix
  rw [← List.take_append_drop k (trfs.take k'), List.foldl_append,
    List.take_take, Nat.min_eq_left h]
  exact foldl_rel stateLe stateLe_refl stateLe_trans _
    (fun s trf => matchPass_le key ver tags inputs s trf) _ _

theorem matchStep_inv {α K : Type} [DecidableEq K] {key : α → K}
    {ver : α → Str} {tag t : Str} {st : MatchState α K} {p : α}
    (h : matchInv key st) : matchInv key (matchStep key ver tag t st p) := by
  unfold matchStep
  split
  · exact h
  split
  · rename_i hassigned _
    obtain ⟨hka, huniq⟩ := h
    constructor
    · intro g q hq
      rcases memAssoc_addTo.mp hq with hq | ⟨_, rfl⟩
      · exact List.mem_cons_of_mem _ (hka g q hq)
      · exact List.mem_cons_self _ _
    · intro g g' q q' hq hq' hkey
      rcases memAssoc_addTo.mp hq with hq | ⟨hg, hqp⟩ <;>
        rcases memAssoc_addTo.mp hq' with hq' | ⟨hg', hqp'⟩
      · exact huniq g g' q q' hq hq' hkey
      · exact absurd (hka g q hq) (by rw [hkey, hqp']; exact hassigned)
      · exact absurd (hka g' q' hq') (by rw [← hkey, hqp]; exact hassigned)
      · subst hg hg' hqp hqp'
        exact ⟨rfl, rfl⟩
  · exact h

theorem matchRunPrefix_inv {α K : Type} [DecidableEq K] (key : α → K)
    (ver : α → Str) (trfs : List (Str → Str)) (tags : List Str)
    (inputs : List α) (k : Nat) :
    matchInv key (matchRunPrefix key ver trfs tags inputs k) := by
  unfold matchRunPrefix
  refine foldl_preserve _ ?_ _ _ ?_
  · intro st trf hst
    unfold matchPass
    refine foldl_preserve _ ?_ _ _ hst
    intro st' tag hst'
    unfold matchTag
    refine foldl_preserve _ ?_ _ _ hst'
    intro st'' q hst''
    exact matchStep_inv hst''
  · constructor
    · intro g q hq
      obtain ⟨v, hv, _⟩ := hq
      simp at hv
    · intro g g' q q' hq _ _
      obtain ⟨v, hv, _⟩ := hq
      simp at hv

theorem mapStringsToTags_eq_state (inputs : List Str)
    (releases : List Release) :
    mapStringsToTags inputs releases = (strMatchStates inputs releases 4).1 :=
  rfl

theorem mapPackagesToTags_eq_state (packages : List Package)
    (releases : List Release) :
    mapPackagesToTags packages releases
      = (pkgMatchStates packages releases 4).1 :=
  rfl

/-! ## Claim theorems -/

/-- **C1**: For every list of input strings and every list of releases,
in the mapping returned by `mapStringsToTags` (and likewise
`mapPackagesToTags` over package versions, identified by package ID)
every input is assigned to at most one tag — it appears in the list of
at most one key of the result map — and an input assigned during an
earlier transformation pass (identity, strip-v-prefix, slugify,
strip-then-slugify, in that order) is never reassigned to a different
tag in a later pass: its assignment persists to every later pass state,
where it is the only tag holding it. -/
theorem matcher_exclusive_assignment (inputs : List Str)
    (packages : List Package) (releases : List Release) :
    (∀ g g' s, memAssocB (mapStringsToTags inputs releases) g s = true →
       memAssocB (mapStringsToTags inputs releases) g' s = true → g = g')
  ∧ (∀ k k' g s, k ≤ k' →
       memAssocB (strMatchStates inputs releases k).1 g s = true →
       memAssocB (strMatchStates inputs releases k').1 g s = true
       ∧ ∀ g', memAssocB (strMatchStates inputs releases k').1 g' s = true →
         g' = g)
  ∧ (∀ g g' p p', memAssocB (mapPackagesToTags packages releases) g p = true →
       memAssocB (mapPackagesToTags packages releases) g' p' = true →
       p.ID = p'.ID → g = g' ∧ p = p')
  ∧ (∀ k k' g p, k ≤ k' →
       memAssocB (pkgMatchStates packages releases k).1 g p = true →
       memAssocB (pkgMatchStates packages releases k').1 g p = true
       ∧ ∀ g', memAssocB (pkgMatchStates packages releases k').1 g' p = true →
         g' = g) := by
  refine ⟨?_, ?_, ?_, ?_⟩
  · intro g g' s h1 h2
    rw [mapStringsToTags_eq_state] at h1 h2
    have hinv := matchRunPrefix_inv id id tagTransformations
      (sortedTags releases) (stableSort strLt inputs) 4
    exact (hinv.2 g g' s s (memAssocB_iff.mp h1) (memAssocB_iff.mp h2) rfl).1
  · intro k k' g s hk h1
    have hmono := matchRunPrefix_le id id tagTransformations
      (sortedTags releases) (stableSort strLt inputs) hk
    have h1' := hmono.1 g s (memAssocB_iff.mp h1)
    refine ⟨memAssocB_iff.mpr h1', ?_⟩
    intro g' h2
    have hinv := matchRunPrefix_inv id id tagTransformations
      (sortedTags releases) (stableSort strLt inputs) k'
    exact (hinv.2 g' g s s (memAssocB_iff.mp h2) h1' rfl).1
  · intro g g' p p' h1 h2 hid
    rw [mapPackagesToTags_eq_state] at h1 h2
    have hinv := matchRunPrefix_inv Package.ID Package.Version
      tagTransformations (sortedTags releases)
      (stableSort (fun a b => strLt a.Version b.Version) packages) 4
    exact hinv.2 g g' p p' (memAssocB_iff.mp h1) (memAssocB_iff.mp h2) hid
  · intro k k' g p hk h1
    have hmono := matchRunPrefix_le Package.ID Package.Version
      tagTransformations (sortedTags releases)
      (stableSort (fun a b => strLt a.Version b.Version) packages) hk
    have h1' := hmono.1 g p (memAssocB_iff.mp h1)
    refine ⟨memAssocB_iff.mpr h1', ?_⟩
    intro g' h2
    have hinv := matchRunPrefix_inv Package.ID Package.Version
      tagTransformations (sortedTags releases)
      (stableSort (fun a b => strLt a.Version b.Version) packages) k'
    exact (hinv.2 g' g p p (memAssocB_iff.mp h2) h1' rfl).1

/-- Witness for C1: with input `"1.0.0"` and the single release tag
`"v1.0.0"`, the input is assigned during the second pass
(strip-v-prefix) and is still assigned to the same tag after all four
passes, and the final maps of both matchers agree with exclusivity at a
concrete instance. -/
theorem matcher_exclusive_assignment_witness :
    memAssocB (strMatchStates ["1.0.0".toList] [⟨"v1.0.0".toList, [], false⟩] 4).1
      "v1.0.0".toList "1.0.0".toList = true
    ∧ ("v1.0.0".toList : Str) = "v1.0.0".toList := by
  have h := matcher_exclusive_assignment ["1.0.0".toList] []
    [⟨"v1.0.0".toList, [], false⟩]
  have h2 := h.2.1 2 4 "v1.0.0".toList "1.0.0".toList (by decide) (by decide)
  exact ⟨h2.1, h2.2 "v1.0.0".toList h2.1⟩

/-- **C2**: Given releases whose tags are `"v1.0.0"` and `"v1.0.0-rc"`
and the input strings `["1.0.0-rc", "1.0.0", "2.0.0"]`,
`mapStringsToTags` returns exactly the map
`{"v1.0.0": ["1.0.0"], "v1.0.0-rc": ["1.0.0-rc"]}`: longest-tag-first
precedence assigns `"1.0.0-rc"` to tag `"v1.0.0-rc"` rather than
`"v1.0.0"`, and `"2.0.0"` appears under no tag (the map has exactly the
two keys below and no list contains `"2.0.0"`). -/
theorem mapStringsToTags_longest_first_example :
    List.lookup "v1.0.0".toList
        (mapStringsToTags ["1.0.0-rc".toList, "1.0.0".toList, "2.0.0".toList]
          [⟨"v1.0.0".toList, [], false⟩, ⟨"v1.0.0-rc".toList, [], false⟩])
      = some ["1.0.0".toList]
    ∧ List.lookup "v1.0.0-rc".toList
        (mapStringsToTags ["1.0.0-rc".toList, "1.0.0".toList, "2.0.0".toList]
          [⟨"v1.0.0".toList, [], false⟩, ⟨"v1.0.0-rc".toList, [], false⟩])
      = some ["1.0.0-rc".toList]
    ∧ (mapStringsToTags ["1.0.0-rc".toList, "1.0.0".toList, "2.0.0".toList]
        [⟨"v1.0.0".toList, [], false⟩, ⟨"v1.0.0-rc".toList, [], false⟩]).length
      = 2
    ∧ (mapStringsToTags ["1.0.0-rc".toList, "1.0.0".toList, "2.0.0".toList]
        [⟨"v1.0.0".toList, [], false⟩, ⟨"v1.0.0-rc".toList, [], false⟩]).all
        (fun kv => ! kv.2.contains "2.0.0".toList) = true := by
  refine ⟨?_, ?_, ?_, ?_⟩ <;> decide

/-- **C3 counterexample**: on `"a!!b"` the source's `slugify` yields
`"a--b"` (each of the two `'!'` characters is replaced by its own
hyphen), while the spec's run-collapsing algorithm yields `"a-b"`; the
claimed equality fails. -/
theorem slugify_ne_spec_runs :
    slugify "a!!b".toList = "a--b".toList
    ∧ slugifySpecRuns "a!!b".toList = "a-b".toList
    ∧ slugify "a!!b".toList ≠ slugifySpecRuns "a!!b".toList := by
  refine ⟨?_, ?_, ?_⟩ <;> decide

theorem replaceEachNonSlug_eq_slugCleanup (s : Str) :
    replaceEachNonSlug s = slugCleanup s := by
  induction s with
  | nil => rfl
  | cons c s ih =>
      simp only [replaceEachNonSlug, slugCleanup, List.map_cons]
      rw [ih]
      rfl

/-- **C3 (amended)**: for every string `s`, `slugify s` equals the
result of lowercasing `s`, replacing every character outside `[a-z0-9]`
with its own `'-'` (a run of `k` such characters becomes `k` hyphens,
not one), truncating to at most 63 characters, and then stripping
leading and trailing `'-'` runs, with the stripping performed after the
truncation. -/
theorem slugify_eq_spec_amended (s : Str) :
    slugify s = slugifySpecAmended s := by
  unfold slugify refSlug slugifySpecAmended strToLower
  rw [replaceEachNonSlug_eq_slugCleanup]

/-- **C9**: `slugify` is idempotent: for every string `s`,
`slugify (slugify s) = slugify s`. -/
theorem slugify_idempotent (s : Str) :
    slugify (slugify s) = slugify s :=
  refSlug_refSlug s

/-! ## Lemmas about the reconciler -/

theorem mem_sortedSetDiff {a b : List Str} {s : Str} :
    s ∈ sortedSetDiff a b ↔ s ∈ a ∧ s ∉ b := by
  unfold sortedSetDiff
  rw [(stableSort_perm _ _).mem_iff, List.mem_filter, List.mem_dedup]
  simp

theorem sortedSetDiff_sorted (a b : List Str) :
    (sortedSetDiff a b).Pairwise (fun x y => strLt x y = true) :=
  stableSort_strLt_strict ((List.nodup_dedup a).filter _)

theorem sortedSetDiff_eq_nil_iff {a b : List Str} :
    sortedSetDiff a b = [] ↔ ∀ s ∈ a, s ∈ b := by
  rw [List.eq_nil_iff_forall_not_mem]
  constructor
  · intro h s hs
    by_contra hb
    exact h s (mem_sortedSetDiff.mpr ⟨hs, hb⟩)
  · intro h s hsmem
    obtain ⟨h1, h2⟩ := mem_sortedSetDiff.mp hsmem
    exact h2 (h s h1)

/-- **C4**: Reconciliation fails with a single error: if any changelog
release tag is absent from the repository tags it reports exactly the
sorted list of those changelog-only tags (even when VCS-only tags also
exist — changelog-only tags take precedence and the two mismatch kinds
are never reported together); otherwise, if any repository tag is
absent from the changelog release tags, it reports exactly the sorted
list of those VCS-only tags.  In particular, with releases
`[{tag: "v1.0.0"}]` and tags `[{name: "v2.0.0"}]` the error detail list
is exactly `["v1.0.0"]`. -/
theorem reconcile_first_check_wins (releases : List Release)
    (tags : List Tag) :
    ((∃ r ∈ releases, r.Tag ∉ tags.map Tag.Name) →
      ∃ L, compareReleasesTags releases tags
          = some (ConsistencyError.extraReleases L)
        ∧ L.Pairwise (fun x y => strLt x y = true)
        ∧ ∀ s, s ∈ L ↔ s ∈ releases.map Release.Tag ∧ s ∉ tags.map Tag.Name)
  ∧ ((∀ r ∈ releases, r.Tag ∈ tags.map Tag.Name) →
      (∃ t ∈ tags, t.Name ∉ releases.map Release.Tag) →
      ∃ L, compareReleasesTags releases tags
          = some (ConsistencyError.extraTags L)
        ∧ L.Pairwise (fun x y => strLt x y = true)
        ∧ ∀ s, s ∈ L ↔ s ∈ tags.map Tag.Name ∧ s ∉ releases.map Release.Tag)
  ∧ compareReleasesTags [⟨"v1.0.0".toList, [], false⟩]
        [⟨"v2.0.0".toList, 0⟩]
      = some (ConsistencyError.extraReleases ["v1.0.0".toList]) := by
  refine ⟨?_, ?_, by decide⟩
  · rintro ⟨r, hr, hnot⟩
    have hmem : r.Tag ∈ sortedSetDiff (releases.map Release.Tag)
        (tags.map Tag.Name) :=
      mem_sortedSetDiff.mpr ⟨List.mem_map_of_mem _ hr, hnot⟩
    have hne : sortedSetDiff (releases.map Release.Tag) (tags.map Tag.Name)
        ≠ [] := fun h => by rw [h] at hmem; exact (List.not_mem_nil _) hmem
    refine ⟨_, ?_, sortedSetDiff_sorted _ _, fun s => mem_sortedSetDiff⟩
    unfold compareReleasesTags
    rw [if_pos hne]
  · intro hall
    rintro ⟨t, ht, hnot⟩
    have h1 : sortedSetDiff (releases.map Release.Tag) (tags.map Tag.Name)
        = [] := by
      rw [sortedSetDiff_eq_nil_iff]
      intro s hs
      obtain ⟨r, hr, rfl⟩ := List.mem_map.mp hs
      exact hall r hr
    have hmem : t.Name ∈ sortedSetDiff (tags.map Tag.Name)
        (releases.map Release.Tag) :=
      mem_sortedSetDiff.mpr ⟨List.mem_map_of_mem _ ht, hnot⟩
    have hne : sortedSetDiff (tags.map Tag.Name) (releases.map Release.Tag)
        ≠ [] := fun h => by rw [h] at hmem; exact (List.not_mem_nil _) hmem
    refine ⟨_, ?_, sortedSetDiff_sorted _ _, fun s => mem_sortedSetDiff⟩
    unfold compareReleasesTags
    rw [if_neg (fun hcon => hcon h1), if_pos hne]

/-- Witness for C4: at releases `[{tag: "v1.0.0"}]` and tags
`[{name: "v2.0.0"}]` (a changelog-only and a VCS-only tag at once) the
error carries exactly the changelog-only list `["v1.0.0"]`, and at
matched-plus-extra-tag inputs the VCS-only error fires. -/
theorem reconcile_first_check_wins_witness :
    (∃ L, compareReleasesTags [⟨"v1.0.0".toList, [], false⟩]
        [⟨"v2.0.0".toList, 0⟩]
        = some (ConsistencyError.extraReleases L)
      ∧ L.Pairwise (fun x y => strLt x y = true)
      ∧ ∀ s, s ∈ L ↔ s ∈ ["v1.0.0".toList] ∧ s ∉ ["v2.0.0".toList])
    ∧ ∃ L, compareReleasesTags [⟨"v1.0.0".toList, [], false⟩]
        [⟨"v1.0.0".toList, 0⟩, ⟨"v2.0.0".toList, 0⟩]
        = some (ConsistencyError.extraTags L)
      ∧ L.Pairwise (fun x y => strLt x y = true)
      ∧ ∀ s, s ∈ L ↔ s ∈ ["v1.0.0".toList, "v2.0.0".toList]
          ∧ s ∉ ["v1.0.0".toList] := by
  constructor
  · exact (reconcile_first_check_wins [⟨"v1.0.0".toList, [], false⟩]
      [⟨"v2.0.0".toList, 0⟩]).1 ⟨⟨"v1.0.0".toList, [], false⟩, by decide, by decide⟩
  · exact (reconcile_first_check_wins [⟨"v1.0.0".toList, [], false⟩]
      [⟨"v1.0.0".toList, 0⟩, ⟨"v2.0.0".toList, 0⟩]).2.1 (by decide)
      ⟨⟨"v2.0.0".toList, 0⟩, by decide, by decide⟩

/-- **C5**: Reconciliation succeeds (returns no error) if and only if
the changelog releases and the repository tags have exactly the same
tag names — every changelog release tag occurs among the repository tag
names and vice versa; any discrepancy is a failure. -/
theorem reconcile_success_iff (releases : List Release) (tags : List Tag) :
    compareReleasesTags releases tags = none ↔
      ∀ s : Str, s ∈ releases.map Release.Tag ↔ s ∈ tags.map Tag.Name := by
  unfold compareReleasesTags
  constructor
  · intro h
    by_cases h1 : sortedSetDiff (releases.map Release.Tag) (tags.map Tag.Name)
        = []
    · by_cases h2 : sortedSetDiff (tags.map Tag.Name)
          (releases.map Release.Tag) = []
      · intro s
        exact ⟨fun hs => sortedSetDiff_eq_nil_iff.mp h1 s hs,
          fun hs => sortedSetDiff_eq_nil_iff.mp h2 s hs⟩
      · rw [if_neg (fun hcon => hcon h1), if_pos h2] at h
        exact absurd h (by simp)
    · rw [if_pos h1] at h
      exact absurd h (by simp)
  · intro h
    have h1 : sortedSetDiff (releases.map Release.Tag) (tags.map Tag.Name)
        = [] := sortedSetDiff_eq_nil_iff.mpr (fun s hs => (h s).mp hs)
    have h2 : sortedSetDiff (tags.map Tag.Name) (releases.map Release.Tag)
        = [] := sortedSetDiff_eq_nil_iff.mpr (fun s hs => (h s).mpr hs)
    rw [if_neg (fun hcon => hcon h1), if_neg (fun hcon => hcon h2)]

/-! ## Lemmas about the changelog loader -/

theorem changelogReleases_cons (e : ChangelogEntry)
    (rest : List ChangelogEntry) :
    changelogReleases (e :: rest)
      = if strToLower e.Version = "unreleased".toList then
          changelogReleases rest
        else if hasPrefix e.Version ['v'] then
          Except.error (FormatError.startsWithV e.Version)
        else
          match e.Date with
          | none => Except.error (FormatError.missingDate e.Version)
          | some _ =>
              match changelogReleases rest with
              | .error err => .error err
              | .ok rs => .ok (entryRelease e :: rs) :=
  rfl

/-- **C6**: For every parsed changelog entry list, `changelogReleases`
drops every entry whose version case-insensitively equals
`"unreleased"`; fails with a `FormatError` if any remaining entry's
version starts with the `"v"` prefix marker; fails with a `FormatError`
if any remaining entry lacks a release date; and otherwise returns one
`Release` per remaining entry, in order, built by `entryRelease` (whose
tag is `'v'` prepended to the entry's version). -/
theorem changelogReleases_spec (entries : List ChangelogEntry) :
    ((∀ e ∈ entries, strToLower e.Version ≠ "unreleased".toList →
        hasPrefix e.Version ['v'] = false ∧ e.Date ≠ none) →
      changelogReleases entries
        = Except.ok ((entries.filter
            (fun e => ! decide (strToLower e.Version = "unreleased".toList))).map
            entryRelease))
  ∧ ((∃ e ∈ entries, strToLower e.Version ≠ "unreleased".toList ∧
        hasPrefix e.Version ['v'] = true) →
      ∃ err, changelogReleases entries = Except.error err)
  ∧ ((∃ e ∈ entries, strToLower e.Version ≠ "unreleased".toList ∧
        e.Date = none) →
      ∃ err, changelogReleases entries = Except.error err) := by
  induction entries with
  | nil =>
      refine ⟨fun _ => rfl, ?_, ?_⟩ <;> rintro ⟨e, he, -⟩ <;> simp at he
  | cons e rest ih =>
      refine ⟨?_, ?_, ?_⟩
      · intro hok
        by_cases hu : strToLower e.Version = "unreleased".toList
        · rw [changelogReleases_cons, if_pos hu,
            ih.1 (fun x hx => hok x (List.mem_cons_of_mem _ hx)),
            List.filter_cons,
            if_neg (by
              simp only [Bool.not_eq_true', Bool.not_eq_false,
                decide_eq_true_eq]
              exact hu)]
        · obtain ⟨hv, hd⟩ := hok e (List.mem_cons_self _ _) hu
          obtain ⟨d, hd'⟩ := Option.ne_none_iff_exists'.mp hd
          rw [changelogReleases_cons, if_neg hu, if_neg (by simp [hv]), hd',
            ih.1 (fun x hx => hok x (List.mem_cons_of_mem _ hx)),
            List.filter_cons,
            if_pos (by
              simp only [Bool.not_eq_true', decide_eq_false_iff_not]
              exact hu)]
          rfl
      · rintro ⟨x, hx, hxu, hxv⟩
        rcases List.mem_cons.mp hx with rfl | hx
        · rw [changelogReleases_cons]
          rw [if_neg hxu, if_pos hxv]
          exact ⟨_, rfl⟩
        · obtain ⟨err, herr⟩ := ih.2.1 ⟨x, hx, hxu, hxv⟩
          by_cases hu : strToLower e.Version = "unreleased".toList
          · rw [changelogReleases_cons]
            rw [if_pos hu]
            exact ⟨err, herr⟩
          · by_cases hv : hasPrefix e.Version ['v']
            · rw [changelogReleases_cons]
              rw [if_neg hu, if_pos hv]
              exact ⟨_, rfl⟩
            · rw [changelogReleases_cons]
              rw [if_neg hu, if_neg hv]
              cases hd : e.Date with
              | none => exact ⟨_, rfl⟩
              | some d => rw [herr]; exact ⟨err, rfl⟩
      · rintro ⟨x, hx, hxu, hxd⟩
        rcases List.mem_cons.mp hx with rfl | hx
        · by_cases hv : hasPrefix x.Version ['v']
          · rw [changelogReleases_cons]
            rw [if_neg hxu, if_pos hv]
            exact ⟨_, rfl⟩
          · rw [changelogReleases_cons]
            rw [if_neg hxu, if_neg hv, hxd]
            exact ⟨_, rfl⟩
        · obtain ⟨err, herr⟩ := ih.2.2 ⟨x, hx, hxu, hxd⟩
          by_cases hu : strToLower e.Version = "unreleased".toList
          · rw [changelogReleases_cons]
            rw [if_pos hu]
            exact ⟨err, herr⟩
          · by_cases hv : hasPrefix e.Version ['v']
            · rw [changelogReleases_cons]
              rw [if_neg hu, if_pos hv]
              exact ⟨_, rfl⟩
            · rw [changelogReleases_cons]
              rw [if_neg hu, if_neg hv]
              cases hd : e.Date with
              | none => exact ⟨_, rfl⟩
              | some d => rw [herr]; exact ⟨err, rfl⟩

/-- Witness for C6: an `"Unreleased"` entry (mixed case) is silently
dropped while a dated bare-version entry becomes a `Release` tagged
`"v1.0.0"`; a pre-prefixed `"v1.0.0"` entry makes the loader fail; an
entry missing its date makes the loader fail. -/
theorem changelogReleases_spec_witness :
    changelogReleases
        [⟨"Unreleased".toList, none, [], false⟩,
         ⟨"1.0.0".toList, some 0, ["head".toList, "body".toList], false⟩]
      = Except.ok [⟨"v1.0.0".toList, "body".toList, false⟩]
    ∧ (∃ err, changelogReleases [⟨"v1.0.0".toList, some 0, [], false⟩]
        = Except.error err)
    ∧ ∃ err, changelogReleases [⟨"1.0.0".toList, none, [], false⟩]
        = Except.error err := by
  refine ⟨?_, ?_, ?_⟩
  · have h := (changelogReleases_spec
      [⟨"Unreleased".toList, none, [], false⟩,
       ⟨"1.0.0".toList, some 0, ["head".toList, "body".toList], false⟩]).1
      (by decide)
    rw [h]
    rfl
  · exact (changelogReleases_spec [⟨"v1.0.0".toList, some 0, [], false⟩]).2.1
      ⟨⟨"v1.0.0".toList, some 0, [], false⟩, by decide, by decide, by decide⟩
  · exact (changelogReleases_spec [⟨"1.0.0".toList, none, [], false⟩]).2.2
      ⟨⟨"1.0.0".toList, none, [], false⟩, by decide, by decide, rfl⟩

/-! ## Lemmas about the expected links -/

theorem mapGet_append {α : Type} (l₁ l₂ : List (Str × α)) (k : Str) :
    mapGet (l₁ ++ l₂) k = (mapGet l₁ k).or (mapGet l₂ k) := by
  induction l₁ with
  | nil => simp [mapGet]
  | cons kv l₁ ih =>
      obtain ⟨a, b⟩ := kv
      by_cases h : k = a
      · simp [mapGet, h]
      · simp [mapGet, h, ih]

theorem mapGet_mapPut {α : Type} (m : List (Str × α)) (k k' : Str) (v : α) :
    mapGet (mapPut m k v) k' = if k' = k then some v else mapGet m k' := by
  induction m with
  | nil => rfl
  | cons kv m ih =>
      obtain ⟨a, b⟩ := kv
      unfold mapPut
      by_cases ha : a = k
      · subst ha
        rw [if_pos rfl]
        by_cases h : k' = a <;> simp [mapGet, h]
      · rw [if_neg ha]
        by_cases h : k' = a
        · have h2 : ¬ k' = k := fun hc => ha (h.symm.trans hc)
          simp [mapGet, h, h2, ha]
        · simp [mapGet, h, ih]

theorem mapPut_keys_mem {α : Type} {m : List (Str × α)} {k a : Str} {v : α} :
    a ∈ (mapPut m k v).map Prod.fst ↔ a ∈ m.map Prod.fst ∨ a = k := by
  induction m with
  | nil => simp [mapPut]
  | cons kv m ih =>
      obtain ⟨x, b⟩ := kv
      unfold mapPut
      by_cases hx : x = k
      · rw [if_pos hx]
        simp only [List.map_cons, List.mem_cons, hx]
        tauto
      · rw [if_neg hx]
        simp only [List.map_cons, List.mem_cons, ih]
        tauto

theorem mapPut_keys_nodup {α : Type} {m : List (Str × α)} {k : Str} {v : α}
    (h : (m.map Prod.fst).Nodup) : ((mapPut m k v).map Prod.fst).Nodup := by
  induction m with
  | nil => simp [mapPut]
  | cons kv m ih =>
      obtain ⟨x, b⟩ := kv
      simp only [List.map_cons, List.nodup_cons] at h
      unfold mapPut
      by_cases hx : x = k
      · rw [if_pos hx]
        simp only [List.map_cons, List.nodup_cons]
        exact h
      · rw [if_neg hx]
        simp only [List.map_cons, List.nodup_cons]
        refine ⟨?_, ih h.2⟩
        intro hmem
        rcases mapPut_keys_mem.mp hmem with hmem | rfl
        · exact h.1 hmem
        · exact hx rfl

theorem mapGet_foldl_mapPut {α : Type} (es : List (Str × α)) :
    ∀ (m : List (Str × α)) (k : Str),
      mapGet (es.foldl (fun m kv => mapPut m kv.1 kv.2) m) k
        = (mapGet es.reverse k).or (mapGet m k) := by
  induction es with
  | nil => intro m k; simp [mapGet]
  | cons kv es ih =>
      intro m k
      simp only [List.foldl_cons, List.reverse_cons]
      rw [ih, mapGet_append, mapGet_mapPut]
      obtain ⟨a, b⟩ := kv
      by_cases h : k = a
      · cases hlook : mapGet es.reverse k with
        | none => simp [mapGet, h, hlook]
        | some w => simp [mapGet, h, hlook]
      · cases hlook : mapGet es.reverse k with
        | none => simp [mapGet, h, hlook]
        | some w => simp [mapGet, h, hlook]

theorem getExpectedLinks_keys_nodup (packages : List Package) :
    ((getExpectedLinks packages).map Prod.fst).Nodup := by
  unfold getExpectedLinks
  exact @foldl_preserve (List (Str × ExpectedLink)) (Str × ExpectedLink)
    (fun m => (m.map Prod.fst).Nodup) _
    (fun m kv h => mapPut_keys_nodup h) (emittedLinks packages) [] (by simp)

theorem getExpectedLinks_mapGet (packages : List Package) (k : Str) :
    mapGet (getExpectedLinks packages) k
      = mapGet (emittedLinks packages).reverse k := by
  unfold getExpectedLinks
  rw [mapGet_foldl_mapPut]
  simp [mapGet]

/-- **C8**: In the expected-link map built by `getExpectedLinks`, link
names are unique keys, and the link stored under any name is the first
one in the *reversed* emission order — i.e. the link derived from the
entry occurring *later* in the package/file iteration order; an earlier
link with the same computed name is silently lost.  The concrete
conjunct shows the collision: a generic package `"a"` with file `"b"`
and a later non-generic package named `"a/b"` both compute the link
name `"a/b"`, the map retains only the later (non-generic) link, and it
has a single entry. -/
theorem getExpectedLinks_later_wins (packages : List Package) (name : Str) :
    ((getExpectedLinks packages).map Prod.fst).Nodup
  ∧ mapGet (getExpectedLinks packages) name
      = mapGet (emittedLinks packages).reverse name
  ∧ (mapGet
        (getExpectedLinks
          [⟨1, true, [], "a".toList, "1".toList, ["b".toList]⟩,
           ⟨2, false, [], "a/b".toList, "1".toList, []⟩]) "a/b".toList
      = some ⟨"a/b".toList, ⟨2, false, [], "a/b".toList, "1".toList, []⟩, none⟩
    ∧ (getExpectedLinks
        [⟨1, true, [], "a".toList, "1".toList, ["b".toList]⟩,
         ⟨2, false, [], "a/b".toList, "1".toList, []⟩]).length = 1) :=
  ⟨getExpectedLinks_keys_nodup packages,
    getExpectedLinks_mapGet packages name, by decide, by decide⟩

/-! ## Lemmas about `Upsert`, `mapTagsToDates` and `Sync` -/

/-- **C7**: On the create path of `Upsert` (remote release not found,
creation permitted), for every hinted release timestamp `t` and current
time `now`: if the absolute difference between `t` and `now` is less
than 12 hours the create call is issued with no released-at timestamp,
and otherwise the create call carries `t`; in particular a hint 1 hour
before `now` is omitted and a hint 48 hours before `now` is included. -/
theorem upsert_create_guard (now t : Int) (release : Release)
    (milestones : List Str) (packages : List Package) (images : List Str) :
    ((now - t).natAbs < twelveHours.toNat →
      ∃ opts, upsert false RemoteRelease.notFound now release (some t)
          milestones packages images = some (UpsertAction.create opts)
        ∧ opts.ReleasedAt = none)
  ∧ (¬ (now - t).natAbs < twelveHours.toNat →
      ∃ opts, upsert false RemoteRelease.notFound now release (some t)
          milestones packages images = some (UpsertAction.create opts)
        ∧ opts.ReleasedAt = some t)
  ∧ (∃ opts, upsert false RemoteRelease.notFound now release
        (some (now - oneHour)) milestones packages images
        = some (UpsertAction.create opts)
      ∧ opts.ReleasedAt = none)
  ∧ (∃ opts, upsert false RemoteRelease.notFound now release
        (some (now - 48 * oneHour)) milestones packages images
        = some (UpsertAction.create opts)
      ∧ opts.ReleasedAt = some (now - 48 * oneHour)) := by
  refine ⟨?_, ?_, ?_, ?_⟩
  · intro h
    exact ⟨_, rfl, by simp only [if_pos h]⟩
  · intro h
    exact ⟨_, rfl, by simp only [if_neg h]⟩
  · refine ⟨_, rfl, ?_⟩
    have h : (now - (now - oneHour)).natAbs < twelveHours.toNat := by
      simp only [oneHour, twelveHours]
      omega
    simp only [if_pos h]
  · refine ⟨_, rfl, ?_⟩
    have h : ¬ (now - (now - 48 * oneHour)).natAbs < twelveHours.toNat := by
      simp only [oneHour, twelveHours]
      omega
    simp only [if_neg h]

/-- Witness for C7: at `now = 0`, a hint one hour in the past is
omitted from the create call and a hint 48 hours in the past is kept. -/
theorem upsert_create_guard_witness :
    (∃ opts, upsert false RemoteRelease.notFound 0
        (⟨"v1.0.0".toList, [], false⟩ : Release) (some (-oneHour)) [] [] []
        = some (UpsertAction.create opts) ∧ opts.ReleasedAt = none)
  ∧ ∃ opts, upsert false RemoteRelease.notFound 0
        (⟨"v1.0.0".toList, [], false⟩ : Release) (some (-(48 * oneHour)))
        [] [] []
        = some (UpsertAction.create opts)
      ∧ opts.ReleasedAt = some (-(48 * oneHour)) :=
  ⟨(upsert_create_guard 0 (-oneHour) ⟨"v1.0.0".toList, [], false⟩ [] [] []).1
      (by decide),
    (upsert_create_guard 0 (-(48 * oneHour)) ⟨"v1.0.0".toList, [], false⟩
      [] [] []).2.1 (by decide)⟩

theorem compareReleasesTags_none_forward {releases : List Release}
    {tags : List Tag} (h : compareReleasesTags releases tags = none) :
    ∀ s ∈ releases.map Release.Tag, s ∈ tags.map Tag.Name := by
  unfold compareReleasesTags at h
  by_cases h1 : sortedSetDiff (releases.map Release.Tag) (tags.map Tag.Name)
      = []
  · exact sortedSetDiff_eq_nil_iff.mp h1
  · rw [if_pos h1] at h
    exact absurd h (by simp)

theorem mapTagsToDates_mem (tags : List Tag) (s : Str)
    (hs : s ∈ tags.map Tag.Name) : ∃ d, mapTagsToDates tags s = some d := by
  suffices hgen : ∀ (ts : List Tag) (acc : Str → Option Int),
      ((∃ d, acc s = some d) ∨ s ∈ ts.map Tag.Name) →
      ∃ d, (ts.foldl
        (fun m tag => fun x => if x = tag.Name then some tag.Date else m x)
        acc) s = some d by
    exact hgen tags _ (.inr hs)
  intro ts
  induction ts with
  | nil =>
      rintro acc (⟨d, hd⟩ | h)
      · exact ⟨d, hd⟩
      · simp at h
  | cons tag ts ih =>
      rintro acc (⟨d, hd⟩ | h)
      · refine ih _ (.inl ?_)
        by_cases hx : s = tag.Name
        · exact ⟨tag.Date, by simp [hx]⟩
        · exact ⟨d, by simp [hx, hd]⟩
      · rcases List.mem_cons.mp h with heq | h
        · refine ih _ (.inl ⟨tag.Date, ?_⟩)
          simp [heq]
        · exact ih _ (.inr h)

/-- **C10**: `Upsert` unconditionally dereferences its `releasedAt`
pointer on the create path (remote not found, creation permitted) and
on the update path, so a nil hint crashes there (modelled as the `none`
result); under the precondition that reconciliation succeeded, the
tag-to-date map contains an entry for every release's tag, hence every
`Upsert` call issued by the `Sync` loop receives a non-nil hint, and
with a non-nil hint `upsert` never reaches the crash. -/
theorem upsert_releasedAt_safety (noCreate : Bool) (createdAt now : Int)
    (release : Release) (milestones : List Str) (packages : List Package)
    (images : List Str) (releases : List Release) (tags : List Tag) :
    upsert false RemoteRelease.notFound now release none milestones packages
        images = none
  ∧ upsert noCreate (RemoteRelease.exists_ createdAt) now release none
        milestones packages images = none
  ∧ (compareReleasesTags releases tags = none →
      ∀ pair ∈ syncUpsertHints releases tags, ∃ d, pair.2 = some d)
  ∧ (∀ t : Int,
      upsert noCreate RemoteRelease.notFound now release (some t) milestones
          packages images ≠ none
      ∧ upsert noCreate (RemoteRelease.exists_ createdAt) now release (some t)
          milestones packages images ≠ none) := by
  refine ⟨rfl, rfl, ?_, ?_⟩
  · intro hcomp pair hpair
    obtain ⟨r, hr, rfl⟩ := List.mem_map.mp hpair
    have hmem : r.Tag ∈ tags.map Tag.Name :=
      compareReleasesTags_none_forward hcomp _ (List.mem_map_of_mem _ hr)
    simpa using mapTagsToDates_mem tags r.Tag hmem
  · intro t
    cases noCreate <;> exact ⟨by simp [upsert], by simp [upsert]⟩

/-- Witness for C10: with a matching changelog release and repository
tag, the hint the `Sync` loop passes to `Upsert` is present (the tag's
date). -/
theorem upsert_releasedAt_safety_witness :
    ∃ d, ((⟨"v1.0.0".toList, [], false⟩ : Release),
        mapTagsToDates [⟨"v1.0.0".toList, 5⟩] "v1.0.0".toList).2 = some d := by
  have h := (upsert_releasedAt_safety false 0 0 ⟨"v1.0.0".toList, [], false⟩
    [] [] [] [⟨"v1.0.0".toList, [], false⟩] [⟨"v1.0.0".toList, 5⟩]).2.2.1
    (by decide)
  exact h (⟨"v1.0.0".toList, [], false⟩,
    mapTagsToDates [⟨"v1.0.0".toList, 5⟩] "v1.0.0".toList) (by decide)

end GitlabRelease
